import Mathlib

/-!
Verification of `src/python/gtsam_examples/SFMdata.py`: a structure-from-motion
example-data generator producing a cube of 8 ground-truth landmarks
(`createPoints`) and a ring of 8 ground-truth camera poses looking at the
origin (`createPoses`).

The geometry types `Point3`, `Pose` and the pinhole camera with its look-at
construction come from the external gtsam library, which is not part of this
repository; they are modelled here from the specification's description of the
look-at rule, over exact real numbers.
-/

open Real Matrix

/-- An immutable 3D point / vector (gtsam.Point3) with real coordinates. -/
structure Point3 where
  x : ℝ
  y : ℝ
  z : ℝ

/-- Componentwise difference of two vectors. -/
noncomputable def Point3.sub (a b : Point3) : Point3 :=
  ⟨a.x - b.x, a.y - b.y, a.z - b.z⟩

/-- Componentwise sum of two vectors. -/
noncomputable def Point3.add (a b : Point3) : Point3 :=
  ⟨a.x + b.x, a.y + b.y, a.z + b.z⟩

/-- Scalar multiple of a vector. -/
noncomputable def Point3.smul (c : ℝ) (v : Point3) : Point3 :=
  ⟨c * v.x, c * v.y, c * v.z⟩

/-- Euclidean inner product. -/
noncomputable def Point3.dot (a b : Point3) : ℝ :=
  a.x * b.x + a.y * b.y + a.z * b.z

/-- The 3D cross product. -/
noncomputable def Point3.cross (a b : Point3) : Point3 :=
  ⟨a.y * b.z - a.z * b.y, a.z * b.x - a.x * b.z, a.x * b.y - a.y * b.x⟩

/-- Euclidean norm. -/
noncomputable def Point3.norm (v : Point3) : ℝ :=
  Real.sqrt (v.dot v)

/-- The unit vector in the direction of `v`. -/
noncomputable def Point3.normalize (v : Point3) : Point3 :=
  ⟨v.x / v.norm, v.y / v.norm, v.z / v.norm⟩

/-- A rigid transform (gtsam.Pose3): an orientation, stored as the three axes
of the look-at frame, together with a translation `t` (the camera position). -/
structure Pose where
  right : Point3
  upAxis : Point3
  forward : Point3
  t : Point3

/-- Modelled from the spec: the look-at construction of the external gtsam
library (absent from `src/`). Per the spec: forward axis = normalize(target −
eye); right axis = normalize(forward × up); recomputed up axis = right ×
forward; the returned pose's position equals eye. -/
noncomputable def lookatPose (eye target upHint : Point3) : Pose :=
  let f := (target.sub eye).normalize
  let r := (f.cross upHint).normalize
  ⟨r, r.cross f, f, eye⟩

/-- Modelled from the spec: the pinhole camera abstraction of the external
gtsam library, used only as a vehicle to compute the look-at pose and
immediately discarded after the pose is extracted. -/
structure PinholeCameraCal3_S2 where
  pose : Pose

/-- Modelled from the spec: `gtsam.PinholeCameraCal3_S2.Lookat`. -/
noncomputable def PinholeCameraCal3_S2.Lookat (eye target upHint : Point3) :
    PinholeCameraCal3_S2 :=
  ⟨lookatPose eye target upHint⟩

/-- Modelled from the spec: the 3×3 rotation matrix of a pose's orientation.
Its columns are (right, forward × right, forward): the right-handed
camera-frame convention (x right, y down, z forward) of the surrounding
estimation system, to which the spec defers the column order; the middle
column is the negated recomputed up axis. -/
noncomputable def Pose.R (p : Pose) : Matrix (Fin 3) (Fin 3) ℝ :=
  Matrix.of
    ![![p.right.x, (p.forward.cross p.right).x, p.forward.x],
      ![p.right.y, (p.forward.cross p.right).y, p.forward.y],
      ![p.right.z, (p.forward.cross p.right).z, p.forward.z]]

/-- The set of ground-truth landmarks of `SFMdata.createPoints`. -/
noncomputable def createPoints : List Point3 :=
  [⟨10.0, 10.0, 10.0⟩,
   ⟨-10.0, 10.0, 10.0⟩,
   ⟨-10.0, -10.0, 10.0⟩,
   ⟨10.0, -10.0, 10.0⟩,
   ⟨10.0, 10.0, -10.0⟩,
   ⟨-10.0, 10.0, -10.0⟩,
   ⟨-10.0, -10.0, -10.0⟩,
   ⟨10.0, -10.0, -10.0⟩]

/-- Model of `numpy.linspace start stop num` with `endpoint=False`: the `num` values
`start + (stop - start) / num * i` for `i = 0, …, num - 1`. -/
noncomputable def linspaceNoEndpoint (start stop : ℝ) (num : ℕ) : List ℝ :=
  (List.range num).map (fun i : ℕ => start + (stop - start) / (num : ℝ) * (i : ℝ))

/-- The set of ground-truth poses of `SFMdata.createPoses`: cameras on a
circle of radius 30 in the z = 0 plane, looking at the origin. -/
noncomputable def createPoses : List Pose :=
  let radius : ℝ := 30.0
  let angles := linspaceNoEndpoint 0 (2 * π) 8
  let up : Point3 := ⟨0, 0, 1⟩
  let target : Point3 := ⟨0, 0, 0⟩
  angles.map (fun theta =>
    let position : Point3 := ⟨radius * Real.cos theta, radius * Real.sin theta, 0.0⟩
    let camera := PinholeCameraCal3_S2.Lookat position target up
    camera.pose)

/-- C1: `createPoints` returns exactly 8 points, in the fixed literal order,
and the set of returned points is exactly the set of all sign combinations of
(±10, ±10, ±10). -/
theorem createPoints_spec :
    createPoints =
      [⟨10, 10, 10⟩, ⟨-10, 10, 10⟩, ⟨-10, -10, 10⟩, ⟨10, -10, 10⟩,
       ⟨10, 10, -10⟩, ⟨-10, 10, -10⟩, ⟨-10, -10, -10⟩, ⟨10, -10, -10⟩] ∧
    createPoints.length = 8 ∧
    (∀ p : Point3, p ∈ createPoints ↔
      (p.x = 10 ∨ p.x = -10) ∧ (p.y = 10 ∨ p.y = -10) ∧ (p.z = 10 ∨ p.z = -10)) := by
  refine ⟨by norm_num [createPoints], rfl, fun p => ?_⟩
  constructor
  · intro hp
    simp only [createPoints, List.mem_cons, List.not_mem_nil, or_false] at hp
    rcases hp with rfl | rfl | rfl | rfl | rfl | rfl | rfl | rfl <;>
      refine ⟨?_, ?_, ?_⟩ <;> norm_num
  · rintro ⟨hx, hy, hz⟩
    obtain ⟨x, y, z⟩ := p
    simp only at hx hy hz
    simp only [createPoints, List.mem_cons, List.not_mem_nil, or_false,
      Point3.mk.injEq]
    rcases hx with rfl | rfl <;> rcases hy with rfl | rfl <;>
      rcases hz with rfl | rfl <;> norm_num

/-- Evaluation of `normalize` at a vector whose squared length is the square of a positive
number `n`: each coordinate is divided by `n`. -/
lemma normalize_explicit (v : Point3) (n : ℝ) (hn : 0 < n)
    (h : v.x * v.x + v.y * v.y + v.z * v.z = n ^ 2) :
    v.normalize = ⟨v.x / n, v.y / n, v.z / n⟩ := by
  have hnorm : v.norm = n := by
    rw [Point3.norm, Point3.dot, h, Real.sqrt_sq hn.le]
  rw [Point3.normalize, hnorm]

/-- The unit vector from the eye position at angle θ on the radius-30 circle
toward the origin. -/
lemma normalize_neg_eye (θ : ℝ) :
    (Point3.sub ⟨0, 0, 0⟩ ⟨30 * cos θ, 30 * sin θ, 0⟩).normalize =
      ⟨-cos θ, -sin θ, 0⟩ := by
  have hpy : sin θ ^ 2 + cos θ ^ 2 = 1 := sin_sq_add_cos_sq θ
  have hsub : Point3.sub ⟨0, 0, 0⟩ ⟨30 * cos θ, 30 * sin θ, 0⟩ =
      ⟨-(30 * cos θ), -(30 * sin θ), 0⟩ := by
    simp only [Point3.sub, Point3.mk.injEq]
    refine ⟨by ring, by ring, by ring⟩
  rw [hsub, normalize_explicit _ 30 (by norm_num)
    (by show -(30 * cos θ) * -(30 * cos θ) + -(30 * sin θ) * -(30 * sin θ) +
          0 * 0 = 30 ^ 2
        nlinarith [hpy])]
  simp only [Point3.mk.injEq]
  refine ⟨by ring, by ring, by norm_num⟩

/-- The look-at pose for an eye on the radius-30 circle in the z = 0 plane,
looking at the origin with up hint (0,0,1), in closed form. -/
lemma lookatPose_circle (θ : ℝ) :
    lookatPose ⟨30 * cos θ, 30 * sin θ, 0⟩ ⟨0, 0, 0⟩ ⟨0, 0, 1⟩ =
      ⟨⟨-sin θ, cos θ, 0⟩, ⟨0, 0, 1⟩, ⟨-cos θ, -sin θ, 0⟩,
        ⟨30 * cos θ, 30 * sin θ, 0⟩⟩ := by
  have hpy : sin θ ^ 2 + cos θ ^ 2 = 1 := sin_sq_add_cos_sq θ
  have hf := normalize_neg_eye θ
  have hcross : Point3.cross ⟨-cos θ, -sin θ, 0⟩ ⟨0, 0, 1⟩ =
      ⟨-sin θ, cos θ, 0⟩ := by
    simp only [Point3.cross, Point3.mk.injEq]
    refine ⟨by ring, by ring, by ring⟩
  have hr : (Point3.cross ⟨-cos θ, -sin θ, 0⟩ ⟨0, 0, 1⟩).normalize =
      ⟨-sin θ, cos θ, 0⟩ := by
    rw [hcross, normalize_explicit _ 1 one_pos
      (by show -sin θ * -sin θ + cos θ * cos θ + 0 * 0 = 1 ^ 2
          nlinarith [hpy])]
    simp only [Point3.mk.injEq]
    refine ⟨by ring, by ring, by ring⟩
  have hu : Point3.cross ⟨-sin θ, cos θ, 0⟩ ⟨-cos θ, -sin θ, 0⟩ =
      ⟨0, 0, 1⟩ := by
    simp only [Point3.cross, Point3.mk.injEq]
    refine ⟨by ring, by ring, by nlinarith⟩
  simp only [lookatPose]
  rw [hf, hr, hu]

/-- The `k`-th pose of `createPoses`, in closed form. -/
noncomputable def poseAt (k : ℕ) : Pose :=
  ⟨⟨-sin (2 * π * k / 8), cos (2 * π * k / 8), 0⟩, ⟨0, 0, 1⟩,
   ⟨-cos (2 * π * k / 8), -sin (2 * π * k / 8), 0⟩,
   ⟨30 * cos (2 * π * k / 8), 30 * sin (2 * π * k / 8), 0⟩⟩

/-- Closed form of `createPoses`: the image of `0, …, 7` under `poseAt`. -/
lemma createPoses_eq : createPoses = (List.range 8).map poseAt := by
  simp only [createPoses, linspaceNoEndpoint, List.map_map]
  refine List.map_congr_left (fun k hk => ?_)
  simp only [Function.comp]
  have h30 : (30.0 : ℝ) = 30 := by norm_num
  have h00 : (0.0 : ℝ) = 0 := by norm_num
  have hθ : 0 + (2 * π - 0) / ((8 : ℕ) : ℝ) * (k : ℝ) = 2 * π * k / 8 := by
    push_cast
    ring
  simp only [h30, h00, hθ, PinholeCameraCal3_S2.Lookat]
  exact lookatPose_circle _

/-- The angle list of `createPoses`, in closed form: eight multiples of π/4. -/
lemma linspace_angles_eq :
    linspaceNoEndpoint 0 (2 * π) 8 =
      (List.range 8).map (fun k : ℕ => π / 4 * k) := by
  simp only [linspaceNoEndpoint]
  refine List.map_congr_left (fun k hk => ?_)
  push_cast
  ring

/-- Expansion of `List.range 8` as a literal list. -/
lemma range_eight : List.range 8 = [0, 1, 2, 3, 4, 5, 6, 7] := by decide

/-- C2: the position of the k-th pose of `createPoses` is
(30·cos(2π·k/8), 30·sin(2π·k/8), 0); the angles are strictly increasing,
evenly spaced by π/4 (45°), all in [0, 2π); the positions for k = 0, 2, 4 are
(30,0,0), (0,30,0), (-30,0,0). -/
theorem createPoses_positions_spec :
    createPoses.map Pose.t =
      (List.range 8).map (fun k : ℕ =>
        (⟨30 * cos (2 * π * k / 8), 30 * sin (2 * π * k / 8), 0⟩ : Point3)) ∧
    List.Chain' (fun a b => b - a = π / 4) (linspaceNoEndpoint 0 (2 * π) 8) ∧
    List.Chain' (fun a b => a < b) (linspaceNoEndpoint 0 (2 * π) 8) ∧
    (∀ θ ∈ linspaceNoEndpoint 0 (2 * π) 8, 0 ≤ θ ∧ θ < 2 * π) ∧
    (createPoses.map Pose.t)[0]? = some ⟨30, 0, 0⟩ ∧
    (createPoses.map Pose.t)[2]? = some ⟨0, 30, 0⟩ ∧
    (createPoses.map Pose.t)[4]? = some ⟨-30, 0, 0⟩ := by
  have hmap : createPoses.map Pose.t =
      (List.range 8).map (fun k : ℕ =>
        (⟨30 * cos (2 * π * k / 8), 30 * sin (2 * π * k / 8), 0⟩ : Point3)) := by
    rw [createPoses_eq, List.map_map]
    rfl
  refine ⟨hmap, ?_, ?_, ?_, ?_, ?_, ?_⟩
  · rw [linspace_angles_eq, range_eight]
    simp only [List.map_cons, List.map_nil, List.chain'_cons, List.chain'_singleton,
      and_true]
    push_cast
    refine ⟨?_, ?_, ?_, ?_, ?_, ?_, ?_⟩ <;> ring
  · rw [linspace_angles_eq, range_eight]
    simp only [List.map_cons, List.map_nil, List.chain'_cons, List.chain'_singleton,
      and_true]
    push_cast
    refine ⟨?_, ?_, ?_, ?_, ?_, ?_, ?_⟩ <;> nlinarith [Real.pi_pos]
  · intro θ hθ
    rw [linspace_angles_eq] at hθ
    simp only [List.mem_map, List.mem_range] at hθ
    obtain ⟨k, hk, rfl⟩ := hθ
    have hk7 : (k : ℝ) ≤ 7 := by
      have : k ≤ 7 := Nat.lt_succ_iff.mp hk
      exact_mod_cast this
    have hk0 : (0 : ℝ) ≤ (k : ℝ) := Nat.cast_nonneg k
    constructor
    · positivity
    · nlinarith [Real.pi_pos]
  · rw [hmap, range_eight]
    have h0 : 2 * π * ((0 : ℕ) : ℝ) / 8 = 0 := by push_cast; ring
    simp [h0]
  · rw [hmap, range_eight]
    have h2 : 2 * π * (2 : ℝ) / 8 = π / 2 := by ring
    simp [h2]
  · rw [hmap, range_eight]
    have h4 : 2 * π * (4 : ℝ) / 8 = π := by ring
    simp [h4]

/-- Every pose of `createPoses` is `poseAt k` for some `k < 8`. -/
lemma mem_createPoses {p : Pose} (hp : p ∈ createPoses) :
    ∃ k : ℕ, k < 8 ∧ p = poseAt k := by
  rw [createPoses_eq] at hp
  simp only [List.mem_map, List.mem_range] at hp
  obtain ⟨k, hk, rfl⟩ := hp
  exact ⟨k, hk, rfl⟩

/-- The first pose belongs to `createPoses`. -/
lemma poseAt_zero_mem : poseAt 0 ∈ createPoses := by
  rw [createPoses_eq]
  exact List.mem_map_of_mem _ (List.mem_range.mpr (by norm_num))

/-- Transpose of a 3×3 matrix literal. -/
lemma transpose_fin_three_lit (a b c d e f g h i : ℝ) :
    (!![a, b, c; d, e, f; g, h, i])ᵀ = !![a, d, g; b, e, h; c, f, i] := by
  ext p q
  fin_cases p <;> fin_cases q <;> rfl

/-- The rotation matrix of the closed-form circle pose at angle θ, as a
matrix literal. -/
lemma R_circle_eq (θ : ℝ) (v : Point3) :
    Pose.R ⟨⟨-sin θ, cos θ, 0⟩, ⟨0, 0, 1⟩, ⟨-cos θ, -sin θ, 0⟩, v⟩ =
      !![-sin θ, 0, -cos θ;
         cos θ, 0, -sin θ;
         0, -1, 0] := by
  have hpy : sin θ ^ 2 + cos θ ^ 2 = 1 := sin_sq_add_cos_sq θ
  ext i j
  fin_cases i <;> fin_cases j <;>
    simp [Pose.R, Point3.cross] <;>
    nlinarith [hpy]

/-- The rotation matrix of the closed-form circle pose at angle θ is
orthogonal: its transpose times itself is the identity. -/
lemma R_circle_orthogonal (θ : ℝ) (v : Point3) :
    (Pose.R ⟨⟨-sin θ, cos θ, 0⟩, ⟨0, 0, 1⟩, ⟨-cos θ, -sin θ, 0⟩, v⟩)ᵀ *
      Pose.R ⟨⟨-sin θ, cos θ, 0⟩, ⟨0, 0, 1⟩, ⟨-cos θ, -sin θ, 0⟩, v⟩ = 1 := by
  have hpy : sin θ ^ 2 + cos θ ^ 2 = 1 := sin_sq_add_cos_sq θ
  rw [R_circle_eq, transpose_fin_three_lit, Matrix.mul_fin_three,
    Matrix.one_fin_three]
  ext i j
  fin_cases i <;> fin_cases j <;>
    simp [Matrix.vecHead, Matrix.vecTail] <;>
    nlinarith [hpy]

/-- The rotation matrix of the closed-form circle pose at angle θ has
determinant one. -/
lemma R_circle_det (θ : ℝ) (v : Point3) :
    (Pose.R ⟨⟨-sin θ, cos θ, 0⟩, ⟨0, 0, 1⟩, ⟨-cos θ, -sin θ, 0⟩, v⟩).det = 1 := by
  have hpy : sin θ ^ 2 + cos θ ^ 2 = 1 := sin_sq_add_cos_sq θ
  rw [R_circle_eq, Matrix.det_fin_three]
  simp [Matrix.vecHead, Matrix.vecTail]
  nlinarith [hpy]

/-- C3: every pose of `createPoses` has a valid orthonormal right-handed
orientation: its rotation matrix R satisfies Rᵀ · R = 1 and det R = 1. -/
theorem createPoses_rotation_orthonormal (p : Pose) (hp : p ∈ createPoses) :
    p.Rᵀ * p.R = 1 ∧ p.R.det = 1 := by
  obtain ⟨k, hk, rfl⟩ := mem_createPoses hp
  exact ⟨R_circle_orthogonal (2 * π * k / 8) _, R_circle_det (2 * π * k / 8) _⟩

/-- C3 witness: the pose at k = 0. -/
theorem createPoses_rotation_orthonormal_wit :
    (Pose.R (poseAt 0))ᵀ * Pose.R (poseAt 0) = 1 ∧ (Pose.R (poseAt 0)).det = 1 :=
  createPoses_rotation_orthonormal (poseAt 0) poseAt_zero_mem

/-- C4: every pose of `createPoses` has its forward axis pointing from its
position toward the origin: forward = normalize((0,0,0) − position), and
moving from the position along the forward axis (by any step below the far
side of the circle) strictly decreases the squared distance to the origin. -/
theorem createPoses_forward_toward_origin (p : Pose) (hp : p ∈ createPoses) :
    p.forward = (Point3.sub ⟨0, 0, 0⟩ p.t).normalize ∧
    ∀ s : ℝ, 0 < s → s < 60 →
      Point3.dot (p.t.add (Point3.smul s p.forward))
          (p.t.add (Point3.smul s p.forward)) <
        Point3.dot p.t p.t := by
  obtain ⟨k, hk, rfl⟩ := mem_createPoses hp
  have hpy : sin (2 * π * k / 8) ^ 2 + cos (2 * π * k / 8) ^ 2 = 1 :=
    sin_sq_add_cos_sq _
  constructor
  · exact (normalize_neg_eye (2 * π * k / 8)).symm
  · intro s hs0 hs60
    have h1 : 0 < s * (60 - s) := mul_pos hs0 (by linarith)
    simp only [poseAt, Point3.add, Point3.smul, Point3.dot]
    nlinarith [hpy, h1]

/-- C4 witness: the pose at k = 0. -/
theorem createPoses_forward_toward_origin_wit :
    (poseAt 0).forward = (Point3.sub ⟨0, 0, 0⟩ (poseAt 0).t).normalize ∧
    ∀ s : ℝ, 0 < s → s < 60 →
      Point3.dot ((poseAt 0).t.add (Point3.smul s (poseAt 0).forward))
          ((poseAt 0).t.add (Point3.smul s (poseAt 0).forward)) <
        Point3.dot (poseAt 0).t (poseAt 0).t :=
  createPoses_forward_toward_origin (poseAt 0) poseAt_zero_mem

/-- The norm of the eye position at angle θ on the radius-30 circle. -/
lemma eye_norm (θ : ℝ) : Point3.norm ⟨30 * cos θ, 30 * sin θ, 0⟩ = 30 := by
  have hpy : sin θ ^ 2 + cos θ ^ 2 = 1 := sin_sq_add_cos_sq θ
  rw [Point3.norm, Point3.dot]
  rw [show (30 * cos θ) * (30 * cos θ) + (30 * sin θ) * (30 * sin θ) + 0 * 0 =
        30 ^ 2 from by nlinarith [hpy]]
  exact Real.sqrt_sq (by norm_num)

/-- C5: `createPoses` returns exactly 8 poses; each pose's position is at
Euclidean distance exactly 30 from the origin, with z-coordinate exactly 0. -/
theorem createPoses_radius_spec :
    createPoses.length = 8 ∧
    ∀ p ∈ createPoses, p.t.norm = 30 ∧ p.t.z = 0 := by
  constructor
  · rw [createPoses_eq]
    simp
  · intro p hp
    obtain ⟨k, hk, rfl⟩ := mem_createPoses hp
    exact ⟨eye_norm _, rfl⟩

/-- C9: every pose of `createPoses` has recomputed up axis exactly (0,0,1) —
zero roll — and its forward axis has z-component 0 (it is horizontal). -/
theorem createPoses_zero_roll (p : Pose) (hp : p ∈ createPoses) :
    p.upAxis = ⟨0, 0, 1⟩ ∧ p.forward.z = 0 := by
  obtain ⟨k, hk, rfl⟩ := mem_createPoses hp
  exact ⟨rfl, rfl⟩

/-- C9 witness: the pose at k = 0. -/
theorem createPoses_zero_roll_wit :
    (poseAt 0).upAxis = ⟨0, 0, 1⟩ ∧ (poseAt 0).forward.z = 0 :=
  createPoses_zero_roll (poseAt 0) poseAt_zero_mem

/-- The look-at degeneracy: the direction from the eye to the target is the
zero vector, or its unit vector is parallel to the up hint — in either case
the right axis of the look-at rule degenerates to the zero vector. -/
def lookatDegenerate (eye target upHint : Point3) : Prop :=
  Point3.sub target eye = ⟨0, 0, 0⟩ ∨
    Point3.cross ((Point3.sub target eye).normalize) upHint = ⟨0, 0, 0⟩

/-- C6: both generators are total — each returns all 8 of its values — and the
look-at degeneracy is unreachable at every one of the 8 eye positions: the
forward direction is horizontal (z-component 0) while the up hint (0,0,1) is
vertical, so they are never parallel. -/
theorem createFunctions_total :
    createPoints.length = 8 ∧ createPoses.length = 8 ∧
    ∀ θ ∈ linspaceNoEndpoint 0 (2 * π) 8,
      ¬ lookatDegenerate ⟨30 * cos θ, 30 * sin θ, 0⟩ ⟨0, 0, 0⟩ ⟨0, 0, 1⟩ ∧
      ((Point3.sub ⟨0, 0, 0⟩ ⟨30 * cos θ, 30 * sin θ, 0⟩).normalize).z = 0 := by
  refine ⟨rfl, ?_, ?_⟩
  · rw [createPoses_eq]
    simp
  · intro θ hθ
    have hpy : sin θ ^ 2 + cos θ ^ 2 = 1 := sin_sq_add_cos_sq θ
    constructor
    · rintro (h | h)
      · simp only [lookatDegenerate, Point3.sub, Point3.mk.injEq] at h
        obtain ⟨h1, h2, h3⟩ := h
        have hc : cos θ = 0 := by linarith
        have hs : sin θ = 0 := by linarith
        rw [hc, hs] at hpy
        norm_num at hpy
      · rw [normalize_neg_eye] at h
        simp only [Point3.cross, Point3.mk.injEq] at h
        obtain ⟨h1, h2, h3⟩ := h
        have hs : sin θ = 0 := by linarith
        have hc : cos θ = 0 := by linarith
        rw [hc, hs] at hpy
        norm_num at hpy
    · rw [normalize_neg_eye]

/-- State-passing rendering of `createPoints` over an arbitrary ambient
program state: the body of the source function mentions no global name, so
its translation cannot read or write the state it is given. -/
noncomputable def createPointsSt (σ : Type) (s : σ) : σ × List Point3 :=
  (s, createPoints)

/-- State-passing rendering of `createPoses` over an arbitrary ambient
program state, as for `createPointsSt`. -/
noncomputable def createPosesSt (σ : Type) (s : σ) : σ × List Pose :=
  (s, createPoses)

/-- C7: both functions are deterministic — two calls, in arbitrary (and
possibly different) ambient program states, return value-equal results. -/
theorem createFunctions_deterministic (σ : Type) (s₁ s₂ : σ) :
    (createPointsSt σ s₁).2 = (createPointsSt σ s₂).2 ∧
    (createPosesSt σ s₁).2 = (createPosesSt σ s₂).2 :=
  ⟨rfl, rfl⟩

/-- C8: neither function mutates pre-existing state — the ambient state comes
back unchanged — and each returns data built only from its own constants,
independent of the state. -/
theorem createFunctions_frame (σ : Type) (s : σ) :
    (createPointsSt σ s).1 = s ∧ (createPosesSt σ s).1 = s ∧
    (createPointsSt σ s).2 = createPoints ∧ (createPosesSt σ s).2 = createPoses :=
  ⟨rfl, rfl, rfl, rfl⟩

/-- The pair (cos, sin) is injective on the half-open interval [0, 2π). -/
lemma cos_sin_inj {a b : ℝ} (ha0 : 0 ≤ a) (ha : a < 2 * π) (hb0 : 0 ≤ b)
    (hb : b < 2 * π) (hc : cos a = cos b) (hs : sin a = sin b) : a = b := by
  have h1 : cos (a - b) = 1 := by
    rw [cos_sub, hc, hs]
    nlinarith [sin_sq_add_cos_sq b]
  have h2 : a - b = 0 :=
    (Real.cos_eq_one_iff_of_lt_of_lt (by linarith) (by linarith)).mp h1
  linarith

/-- The squared norm of every landmark of `createPoints` is 300. -/
lemma createPoints_dot (q : Point3) (hq : q ∈ createPoints) :
    Point3.dot q q = 300 := by
  simp only [createPoints, List.mem_cons, List.not_mem_nil, or_false] at hq
  rcases hq with rfl | rfl | rfl | rfl | rfl | rfl | rfl | rfl <;>
    simp only [Point3.dot] <;> norm_num

/-- C10: the 8 pose positions of `createPoses` are pairwise distinct, and no
pose position coincides with any landmark of `createPoints`: positions lie at
norm 30 while landmarks lie at norm 10·√3. -/
theorem createPoses_positions_distinct :
    (createPoses.map Pose.t).Nodup ∧
    (∀ p ∈ createPoses, ∀ q ∈ createPoints, p.t ≠ q) ∧
    (∀ p ∈ createPoses, p.t.norm = 30) ∧
    (∀ q ∈ createPoints, q.norm = 10 * Real.sqrt 3) := by
  have hπ : (0 : ℝ) < π := Real.pi_pos
  refine ⟨?_, ?_, ?_, ?_⟩
  · rw [createPoses_eq, List.map_map]
    refine List.Nodup.map_on ?_ (List.nodup_range 8)
    intro j hj k hk hjk
    simp only [List.mem_range] at hj hk
    have hx := congrArg Point3.x hjk
    have hy := congrArg Point3.y hjk
    simp only [Function.comp, poseAt] at hx hy
    have hc : cos (2 * π * j / 8) = cos (2 * π * k / 8) := by linarith
    have hs : sin (2 * π * j / 8) = sin (2 * π * k / 8) := by linarith
    have hj7 : (j : ℝ) ≤ 7 := by exact_mod_cast Nat.lt_succ_iff.mp hj
    have hk7 : (k : ℝ) ≤ 7 := by exact_mod_cast Nat.lt_succ_iff.mp hk
    have hjge : (0 : ℝ) ≤ (j : ℝ) := Nat.cast_nonneg j
    have hkge : (0 : ℝ) ≤ (k : ℝ) := Nat.cast_nonneg k
    have heq : 2 * π * j / 8 = 2 * π * k / 8 :=
      cos_sin_inj (by positivity) (by nlinarith) (by positivity) (by nlinarith)
        hc hs
    have hπj : π * (j : ℝ) = π * (k : ℝ) := by linarith
    have : (j : ℝ) = (k : ℝ) := mul_left_cancel₀ (ne_of_gt hπ) hπj
    exact_mod_cast this
  · intro p hp q hq h
    obtain ⟨k, hk, rfl⟩ := mem_createPoses hp
    have h900 : Point3.dot (poseAt k).t (poseAt k).t = 900 := by
      have hpy := sin_sq_add_cos_sq (2 * π * k / 8)
      simp only [poseAt, Point3.dot]
      nlinarith [hpy]
    rw [h, createPoints_dot q hq] at h900
    norm_num at h900
  · intro p hp
    obtain ⟨k, hk, rfl⟩ := mem_createPoses hp
    exact eye_norm _
  · intro q hq
    have h300 := createPoints_dot q hq
    rw [Point3.norm, h300]
    rw [show (300 : ℝ) = 10 ^ 2 * 3 from by norm_num,
      Real.sqrt_mul (by positivity) 3, Real.sqrt_sq (by norm_num)]
